import Mathlib

/-!
Verification of the `horner` polynomial-evaluation library.

The Rust source (`src/lib.rs`) exposes two functions, both generic over a
numeric type `T : Zero + MulAddAssign + Copy`:

* `eval_any_rank_polynomial(x, coefficients)` — splits off the first
  coefficient as the initial accumulator, then folds the remaining
  coefficients with `val.mul_add_assign(x, k)` (i.e. `val = val * x + k`);
  returns `T::zero()` on the empty slice.
* `eval_known_rank_polynomial(x, coefficients)` — takes a fixed-size array
  `&[T; N]` and delegates unconditionally to `eval_any_rank_polynomial`.

We embed these as Lean functions over any type with `Mul`, `Add` and `Zero`
instances, mirroring the Rust trait bounds.
-/

namespace Horner

/-- The fused multiply-accumulate step `val.mul_add_assign(x, k)`:
`val = val * x + k` (the default `MulAddAssign` semantics for exact types). -/
def mul_add_assign {T : Type} [Mul T] [Add T] (val x k : T) : T :=
  val * x + k

/-- The Horner reduction loop from `eval_any_rank_polynomial`: starting from
accumulator `val`, consume the remaining coefficients front to back, doing
`val.mul_add_assign(x, k)` for each. -/
def hornerLoop {T : Type} [Mul T] [Add T] (x : T) (val : T) : List T → T
  | [] => val
  | k :: ks => hornerLoop x (mul_add_assign val x k) ks

/-- `eval_any_rank_polynomial` from `src/lib.rs` (lines 56–68): if the slice
has a first element `k`, run the Horner loop seeded with `k` over the rest;
otherwise return `T::zero()`. -/
def eval_any_rank_polynomial {T : Type} [Mul T] [Add T] [Zero T]
    (x : T) (coefficients : List T) : T :=
  match coefficients with
  | [] => (0 : T)
  | k :: ks => hornerLoop x k ks

/-- `eval_known_rank_polynomial` from `src/lib.rs` (lines 85–88): the
coefficient count `N` is part of the static contract (`&[T; N]`, embedded as
a length-indexed subtype); the body delegates unconditionally to
`eval_any_rank_polynomial`. -/
def eval_known_rank_polynomial {T : Type} [Mul T] [Add T] [Zero T]
    (N : ℕ) (x : T) (coefficients : {l : List T // l.length = N}) : T :=
  eval_any_rank_polynomial x coefficients.val

/-- The single error kind of the core. -/
inductive EvalError where
  | CardinalityTooLow
  deriving DecidableEq, Repr

/-- Modelled from the spec: the strict evaluator
(`eval_polynomial` / `try_eval_polynomial`) is described in §4.2 of the spec
but is not present in `src/lib.rs`. Per the spec: if the coefficient
sequence is empty it fails with `CardinalityTooLow`; otherwise it returns
the Horner reduction of §4.1 over the full sequence, as `Ok`. -/
def try_eval_polynomial {T : Type} [Mul T] [Add T]
    (x : T) (coefficients : List T) : Except EvalError T :=
  match coefficients with
  | [] => Except.error EvalError.CardinalityTooLow
  | c :: cs => Except.ok (hornerLoop x c cs)

/-- Reference polynomial value, written as the spec's power sum: for
`cs = [c0, …, c_{n-1}]` (highest power first), the value
`∑ i, c_i · x^(n-1-i)`, defined by structural recursion. -/
def polyValueSpec {T : Type} [CommSemiring T] (x : T) : List T → T
  | [] => 0
  | c :: cs => c * x ^ cs.length + polyValueSpec x cs

/-- The instrumented Horner loop: same reduction, also counting the number
of fused multiply-add operations performed. -/
def hornerLoopCounted {T : Type} [Mul T] [Add T] (x : T) (val : T) :
    List T → T × ℕ
  | [] => (val, 0)
  | k :: ks =>
    let r := hornerLoopCounted x (mul_add_assign val x k) ks
    (r.1, r.2 + 1)

/-- The instrumented evaluator: value together with the number of fused
multiply-add operations (each one multiplication and one addition). -/
def evalAnyRankCounted {T : Type} [Mul T] [Add T] [Zero T]
    (x : T) (coefficients : List T) : T × ℕ :=
  match coefficients with
  | [] => ((0 : T), 0)
  | k :: ks => hornerLoopCounted x k ks

end Horner

namespace Horner

/-- The Horner loop over a semiring computes `val·x^|cs| + polyValueSpec x cs`. -/
theorem hornerLoop_eq_polyValueSpec {T : Type} [CommSemiring T]
    (x : T) (cs : List T) :
    ∀ val : T, hornerLoop x val cs = val * x ^ cs.length + polyValueSpec x cs := by
  induction cs with
  | nil => intro val; simp [hornerLoop, polyValueSpec]
  | cons k ks ih =>
    intro val
    rw [hornerLoop, ih, mul_add_assign, polyValueSpec]
    simp [List.length_cons]
    ring

/-- `polyValueSpec` agrees with the explicit power sum `∑ i, c_i · x^(n-1-i)`. -/
theorem polyValueSpec_eq_sum {T : Type} [CommSemiring T] (x : T) (cs : List T) :
    polyValueSpec x cs =
      ∑ i ∈ Finset.range cs.length, cs.getD i 0 * x ^ (cs.length - 1 - i) := by
  induction cs with
  | nil => simp [polyValueSpec]
  | cons c ks ih =>
    rw [polyValueSpec, ih, List.length_cons, Finset.sum_range_succ']
    simp only [List.getD_cons_succ, List.getD_cons_zero]
    have h1 : ∀ i : ℕ, ks.length + 1 - 1 - (i + 1) = ks.length - 1 - i := by
      intro i; omega
    have h2 : ks.length + 1 - 1 - 0 = ks.length := by omega
    rw [h2]
    rw [add_comm]
    congr 1
    exact Finset.sum_congr rfl fun i _ => by rw [h1 i]

end Horner

namespace Horner

/-- Claim C1: for every non-empty coefficient list `[c0, …, c_{n-1}]`
(highest power first) and every evaluation point `x`,
`eval_any_rank_polynomial x cs` is the Horner reduction, i.e. the
polynomial value `∑ i, c_i · x^(n-1-i)` under exact arithmetic. -/
theorem eval_any_rank_polynomial_is_poly_sum {T : Type} [CommSemiring T]
    (x : T) (cs : List T) (h : cs ≠ []) :
    eval_any_rank_polynomial x cs =
      ∑ i ∈ Finset.range cs.length, cs.getD i 0 * x ^ (cs.length - 1 - i) := by
  cases cs with
  | nil => exact absurd rfl h
  | cons c ks =>
    show hornerLoop x c ks = _
    rw [hornerLoop_eq_polyValueSpec]
    exact polyValueSpec_eq_sum x (c :: ks)

/-- Witness for C1: the spec's concrete scenario `72·5² + 81·5 + 99`. -/
theorem eval_any_rank_polynomial_is_poly_sum_witness :
    ([72, 81, 99] : List ℤ) ≠ [] ∧
      eval_any_rank_polynomial (5 : ℤ) [72, 81, 99] =
        ∑ i ∈ Finset.range ([72, 81, 99] : List ℤ).length,
          ([72, 81, 99] : List ℤ).getD i 0 *
            (5 : ℤ) ^ (([72, 81, 99] : List ℤ).length - 1 - i) :=
  ⟨by decide, eval_any_rank_polynomial_is_poly_sum 5 [72, 81, 99] (by decide)⟩

/-- Claim C2: the strict evaluator fails with `CardinalityTooLow` exactly on
the empty coefficient sequence — its only failure condition. -/
theorem try_eval_polynomial_error_iff_empty {T : Type} [Mul T] [Add T]
    (x : T) (cs : List T) :
    try_eval_polynomial x cs = Except.error EvalError.CardinalityTooLow ↔
      cs = [] := by
  cases cs <;> simp [try_eval_polynomial]

/-- Claim C3: `eval_any_rank_polynomial x []` is the additive identity of
the numeric type, for every `x`, and never fails. -/
theorem eval_any_rank_polynomial_nil {T : Type} [Mul T] [Add T] [Zero T]
    (x : T) :
    eval_any_rank_polynomial x ([] : List T) = 0 := rfl

/-- Claim C4: the fixed-rank evaluator returns exactly the value of the
lenient evaluator on the same input, for every length `N` (including 0) —
it delegates unconditionally. -/
theorem eval_known_rank_polynomial_eq_any_rank {T : Type} [Mul T] [Add T]
    [Zero T] (N : ℕ) (x : T) (cs : {l : List T // l.length = N}) :
    eval_known_rank_polynomial N x cs = eval_any_rank_polynomial x cs.val :=
  rfl

/-- Claim C5: on every non-empty coefficient sequence the strict evaluator
agrees exactly with the lenient evaluator, wrapping the value in `Ok`. -/
theorem try_eval_polynomial_agrees_nonempty {T : Type} [Mul T] [Add T]
    [Zero T] (x : T) (cs : List T) (h : cs ≠ []) :
    try_eval_polynomial x cs = Except.ok (eval_any_rank_polynomial x cs) := by
  cases cs with
  | nil => exact absurd rfl h
  | cons c ks => rfl

/-- Witness for C5 at the spec's scenario `x = -4`, coefficients `[1, 4]`. -/
theorem try_eval_polynomial_agrees_nonempty_witness :
    ([1, 4] : List ℤ) ≠ [] ∧
      try_eval_polynomial (-4 : ℤ) [1, 4] =
        Except.ok (eval_any_rank_polynomial (-4 : ℤ) [1, 4]) :=
  ⟨by decide, try_eval_polynomial_agrees_nonempty (-4) [1, 4] (by decide)⟩

/-- Claim C6: a single-coefficient polynomial evaluates to that constant,
regardless of the evaluation point. -/
theorem eval_any_rank_polynomial_singleton {T : Type} [Mul T] [Add T]
    [Zero T] (x k : T) :
    eval_any_rank_polynomial x [k] = k := rfl

/-- Claim C7: the all-zero-sequence equivalence law — `[0]`, `[]` and
`[0, 0, 0]` all evaluate to the same value, the zero of the numeric type. -/
theorem eval_any_rank_polynomial_all_zero {T : Type} [CommSemiring T]
    (x : T) :
    eval_any_rank_polynomial x [(0 : T)] =
        eval_any_rank_polynomial x ([] : List T) ∧
      eval_any_rank_polynomial x ([] : List T) =
        eval_any_rank_polynomial x [(0 : T), 0, 0] := by
  constructor <;> simp [eval_any_rank_polynomial, hornerLoop, mul_add_assign]

end Horner

namespace Horner

/-- The instrumented loop computes the same value as `hornerLoop` and does
exactly one fused multiply-add per remaining coefficient. -/
theorem hornerLoopCounted_eq {T : Type} [Mul T] [Add T] (x : T)
    (cs : List T) :
    ∀ val : T, hornerLoopCounted x val cs = (hornerLoop x val cs, cs.length) := by
  induction cs with
  | nil => intro val; rfl
  | cons k ks ih =>
    intro val
    simp [hornerLoopCounted, hornerLoop, ih]

/-- Claim C8: on `n ≥ 1` coefficients, evaluation performs exactly `n − 1`
fused multiply-add operations (`n − 1` multiplications and `n − 1`
additions), and the instrumented run yields the evaluator's value. -/
theorem evalAnyRankCounted_cost {T : Type} [Mul T] [Add T] [Zero T]
    (x : T) (cs : List T) (h : 1 ≤ cs.length) :
    (evalAnyRankCounted x cs).2 = cs.length - 1 ∧
      (evalAnyRankCounted x cs).1 = eval_any_rank_polynomial x cs := by
  cases cs with
  | nil => simp at h
  | cons k ks =>
    show (hornerLoopCounted x k ks).2 = _ ∧ (hornerLoopCounted x k ks).1 = _
    rw [hornerLoopCounted_eq]
    exact ⟨rfl, rfl⟩

/-- Witness for C8 on the three-coefficient scenario: two multiply-adds. -/
theorem evalAnyRankCounted_cost_witness :
    1 ≤ ([72, 81, 99] : List ℤ).length ∧
      (evalAnyRankCounted (5 : ℤ) [72, 81, 99]).2 =
          ([72, 81, 99] : List ℤ).length - 1 ∧
        (evalAnyRankCounted (5 : ℤ) [72, 81, 99]).1 =
          eval_any_rank_polynomial (5 : ℤ) [72, 81, 99] :=
  ⟨by decide, evalAnyRankCounted_cost 5 [72, 81, 99] (by decide)⟩

/-- Appending one coefficient at the back of the loop's input performs one
extra multiply-add on the loop's result. -/
theorem hornerLoop_append_last {T : Type} [Mul T] [Add T] (x c : T)
    (ks : List T) :
    ∀ val : T, hornerLoop x val (ks ++ [c]) = hornerLoop x val ks * x + c := by
  induction ks with
  | nil => intro val; rfl
  | cons k ks ih =>
    intro val
    simp only [List.cons_append, hornerLoop]
    exact ih _

/-- Claim C9: for non-empty `cs`,
`eval_any_rank_polynomial x (cs ++ [c]) = eval_any_rank_polynomial x cs · x + c`
— the head of the slice is the highest-degree coefficient, the constant term
comes last, and the reduction peels from the front. -/
theorem eval_any_rank_polynomial_append_last {T : Type} [Mul T] [Add T]
    [Zero T] (x c : T) (cs : List T) (h : cs ≠ []) :
    eval_any_rank_polynomial x (cs ++ [c]) =
      eval_any_rank_polynomial x cs * x + c := by
  cases cs with
  | nil => exact absurd rfl h
  | cons k ks =>
    simp only [List.cons_append]
    show hornerLoop x k (ks ++ [c]) = hornerLoop x k ks * x + c
    exact hornerLoop_append_last x c ks k

/-- Witness for C9: appending the constant term `4` to `[1]` at `x = -4`. -/
theorem eval_any_rank_polynomial_append_last_witness :
    ([1] : List ℤ) ≠ [] ∧
      eval_any_rank_polynomial (-4 : ℤ) ([1] ++ [4]) =
        eval_any_rank_polynomial (-4 : ℤ) [1] * (-4) + 4 :=
  ⟨by decide, eval_any_rank_polynomial_append_last (-4) 4 [1] (by decide)⟩

/-- Claim C10: prepending a zero leading coefficient never changes the
result, for every coefficient list (empty or not) over an exact numeric
type. -/
theorem eval_any_rank_polynomial_zero_cons {T : Type} [CommSemiring T]
    (x : T) (cs : List T) :
    eval_any_rank_polynomial x ([(0 : T)] ++ cs) =
      eval_any_rank_polynomial x cs := by
  cases cs with
  | nil => simp [eval_any_rank_polynomial, hornerLoop]
  | cons k ks =>
    simp only [List.singleton_append, eval_any_rank_polynomial, hornerLoop,
      mul_add_assign, zero_mul, zero_add]

end Horner
